import Mathlib

/-!
Verification of the calc_rs expression-evaluator core (lexer, parser, executor).

The Rust source is shallowly embedded: signed 64-bit machine integers are
modelled as `Int` with the `i64` range made explicit; the `checked_*`
operations return `Option Int` exactly as in the source; the fallible
tokenizer/parser/evaluator return `Option` values mirroring the source's
`Option`-based failure propagation.  The parser's mutable cursor is modelled
by explicit state passing; its general recursion (and the tokenizer's
digit-run recursion) is modelled with a fuel parameter that is provably
ample for the inputs considered, keeping every definition kernel-executable.
-/

/-! ## Signed 64-bit arithmetic (executor.rs / lexer.rs use `checked_*` on `i64`) -/

def i64min : Int := -9223372036854775808

def i64max : Int := 9223372036854775807

/-- Rust `i64::checked_add`. -/
def checked_add (a b : Int) : Option Int :=
  if i64min ≤ a + b ∧ a + b ≤ i64max then some (a + b) else none

/-- Rust `i64::checked_sub`. -/
def checked_sub (a b : Int) : Option Int :=
  if i64min ≤ a - b ∧ a - b ≤ i64max then some (a - b) else none

/-- Rust `i64::checked_mul`. -/
def checked_mul (a b : Int) : Option Int :=
  if i64min ≤ a * b ∧ a * b ≤ i64max then some (a * b) else none

/-- Rust `i64::checked_div`: `None` on division by zero or `i64::MIN / -1`.
Rust integer division truncates toward zero, which is `Int.tdiv`. -/
def checked_div (a b : Int) : Option Int :=
  if b = 0 then none
  else if a = i64min ∧ b = -1 then none
  else some (Int.tdiv a b)

/-- Rust `i64::checked_rem`: `None` on zero divisor or `i64::MIN % -1`.
Rust `%` takes the sign of the dividend, which is `Int.tmod`. -/
def checked_rem (a b : Int) : Option Int :=
  if b = 0 then none
  else if a = i64min ∧ b = -1 then none
  else some (Int.tmod a b)

/-- Rust `i64::checked_pow` with a `u32` exponent (modelled as `Nat`). -/
def checked_pow (n : Int) (e : Nat) : Option Int :=
  if i64min ≤ n ^ e ∧ n ^ e ≤ i64max then some (n ^ e) else none

/-- Two's-complement wrap-around into the `i64` range.  The executor's prefix
minus is the one UNchecked arithmetic operation in the source (`Some(-n)`):
with overflow checks disabled Rust wraps, which this function models (with
checks enabled Rust panics instead; in neither build does the source return
the `None` failure value there). -/
def wrap64 (n : Int) : Int :=
  (n + 9223372036854775808) % 18446744073709551616 - 9223372036854775808

/-! ## Abstract syntax (ast.rs) -/

inductive Operator
  | Add
  | Sub
  | Mul
  | Div
  | Rem
deriving DecidableEq

inductive PrefixOperator
  | Plus
  | Minus
deriving DecidableEq

inductive PostfixOperator
  | Factorial
  | Exponential (exp : Nat)
deriving DecidableEq

inductive Expr
  | PrefixExpr (op : PrefixOperator) (e : Expr)
  | PostfixExpr (op : PostfixOperator) (e : Expr)
  | UnaryExpr (n : Int)
  | BinaryExpr (left : Expr) (right : Expr) (op : Operator)
deriving DecidableEq

/-! ## Evaluator (executor.rs) -/

/-- Inclusive integer range `lo..=hi` as a list, empty when `hi < lo`
(this is how Rust's `for i in 2..=n` iterates). -/
def rangeIncl (lo hi : Int) : List Int :=
  (List.range (hi + 1 - lo).toNat).map (fun k : Nat => lo + (k : Int))

/-- Body of `factorial`'s `for` loop: fold the checked multiplication over
the remaining loop indices, starting from the accumulator `sum`. -/
def factLoop : Int → List Int → Option Int
  | sum, [] => some sum
  | sum, i :: rest =>
    match checked_mul sum i with
    | none => none
    | some s => factLoop s rest

/-- Rust `factorial` in executor.rs: `sum = 1; for i in 2..=n { sum = sum.checked_mul(i)? }`. -/
def factorial (n : Int) : Option Int :=
  factLoop 1 (rangeIncl 2 n)

/-- Dispatch of the `match op` in `eval`'s `BinaryExpr` arm. -/
def evalBinOp (op : Operator) (a b : Int) : Option Int :=
  match op with
  | Operator.Add => checked_add a b
  | Operator.Sub => checked_sub a b
  | Operator.Div => checked_div a b
  | Operator.Mul => checked_mul a b
  | Operator.Rem => checked_rem a b

/-- Rust `eval` in executor.rs.  The prefix-minus arm is the source's
unchecked `Some(-n)`, modelled as two's-complement wrapping (see `wrap64`). -/
def eval : Expr → Option Int
  | Expr.UnaryExpr n => some n
  | Expr.PrefixExpr op e =>
    match op with
    | PrefixOperator.Minus =>
      match eval e with
      | none => none
      | some n => some (wrap64 (-n))
    | PrefixOperator.Plus => eval e
  | Expr.PostfixExpr op e =>
    match op with
    | PostfixOperator.Factorial =>
      match eval e with
      | none => none
      | some n => factorial n
    | PostfixOperator.Exponential exp =>
      match eval e with
      | none => none
      | some n => checked_pow n exp
  | Expr.BinaryExpr l r op =>
    match eval l with
    | none => none
    | some a =>
      match eval r with
      | none => none
      | some b => evalBinOp op a b

/-! ## Termination of evaluation, stated via a fuel-indexed unrolling -/

/-- Number of nodes of an expression tree. -/
def size : Expr → Nat
  | Expr.UnaryExpr _ => 1
  | Expr.PrefixExpr _ e => size e + 1
  | Expr.PostfixExpr _ e => size e + 1
  | Expr.BinaryExpr l r _ => size l + size r + 1

/-- Fuel-indexed unrolling of `eval`: outer `none` means the fuel ran out
before the recursion bottomed out; `some r` means the recursion completed
with `eval`-result `r`. -/
def evalFuel : Nat → Expr → Option (Option Int)
  | 0, _ => none
  | _ + 1, Expr.UnaryExpr n => some (some n)
  | f + 1, Expr.PrefixExpr op e =>
    match evalFuel f e with
    | none => none
    | some r =>
      match op with
      | PrefixOperator.Minus =>
        match r with
        | none => some none
        | some n => some (some (wrap64 (-n)))
      | PrefixOperator.Plus => some r
  | f + 1, Expr.PostfixExpr op e =>
    match evalFuel f e with
    | none => none
    | some r =>
      match op with
      | PostfixOperator.Factorial =>
        match r with
        | none => some none
        | some n => some (factorial n)
      | PostfixOperator.Exponential exp =>
        match r with
        | none => some none
        | some n => some (checked_pow n exp)
  | f + 1, Expr.BinaryExpr l r op =>
    match evalFuel f l with
    | none => none
    | some none => some none
    | some (some a) =>
      match evalFuel f r with
      | none => none
      | some none => some none
      | some (some b) => some (evalBinOp op a b)

theorem size_pos (e : Expr) : 0 < size e := by
  cases e <;> simp [size]

theorem evalFuel_eq_eval (e : Expr) : ∀ f : Nat, size e ≤ f → evalFuel f e = some (eval e) := by
  induction e with
  | UnaryExpr n =>
    intro f hf
    match f, hf with
    | g + 1, _ => rfl
  | PrefixExpr op e ih =>
    intro f hf
    match f, hf with
    | g + 1, hf =>
      have hg : size e ≤ g := by simp [size] at hf; omega
      cases op <;> cases he : eval e <;>
        simp [evalFuel, ih g hg, eval, he]
  | PostfixExpr op e ih =>
    intro f hf
    match f, hf with
    | g + 1, hf =>
      have hg : size e ≤ g := by simp [size] at hf; omega
      cases op <;> cases he : eval e <;>
        simp [evalFuel, ih g hg, eval, he]
  | BinaryExpr l r op ihl ihr =>
    intro f hf
    match f, hf with
    | g + 1, hf =>
      have hgl : size l ≤ g := by simp [size] at hf; omega
      have hgr : size r ≤ g := by simp [size] at hf; omega
      cases hl : eval l <;> cases hr : eval r <;>
        simp [evalFuel, ihl g hgl, ihr g hgr, eval, hl, hr]

/-- C10: evaluation is total as a terminating function: for every finite
expression tree, the fuel-indexed unrolling of the evaluator completes within
`size e` steps (the recursion is structural over the tree, and the factorial
loop ranges over a finite interval), yielding exactly `eval e` — either an
integer or a failure. -/
theorem eval_terminates (e : Expr) : evalFuel (size e) e = some (eval e) :=
  evalFuel_eq_eval e (size e) le_rfl

/-- C1 (code bug evidence): the source's prefix minus is unchecked (`Some(-n)`),
so evaluating `Prefix(Minus, Literal(i64::MIN))` yields the wrapped value
`i64::MIN` again rather than the overflow failure the specification mandates. -/
theorem eval_minus_min_wraps :
    eval (Expr.PrefixExpr PrefixOperator.Minus (Expr.UnaryExpr i64min)) = some i64min := by
  decide

/-- C8: for all expression trees `l` and `r` such that `r` evaluates to 0,
`Binary(Div, l, r)` and `Binary(Rem, l, r)` both fail to evaluate, regardless
of `l`. -/
theorem eval_div_rem_zero (l r : Expr) (h : eval r = some 0) :
    eval (Expr.BinaryExpr l r Operator.Div) = none ∧
      eval (Expr.BinaryExpr l r Operator.Rem) = none := by
  cases hl : eval l <;>
    simp [eval, hl, h, evalBinOp, checked_div, checked_rem]

theorem eval_div_rem_zero_witness :
    eval (Expr.BinaryExpr (Expr.UnaryExpr 1) (Expr.UnaryExpr 0) Operator.Div) = none :=
  (eval_div_rem_zero (Expr.UnaryExpr 1) (Expr.UnaryExpr 0) rfl).1

/-! ## Factorial: supporting lemmas for C2 -/

theorem factLoop_some_prod :
    ∀ (l : List Int) (acc v : Int), factLoop acc l = some v → v = acc * l.prod := by
  intro l
  induction l with
  | nil => intro acc v h; simp [factLoop] at h; simp [h.symm]
  | cons i rest ih =>
    intro acc v h
    simp only [factLoop] at h
    cases hm : checked_mul acc i with
    | none => rw [hm] at h; exact absurd h (by simp)
    | some s =>
      rw [hm] at h
      have hs : s = acc * i := by
        simp only [checked_mul] at hm
        split at hm
        · exact (Option.some.injEq _ _ ▸ hm).symm
        · exact absurd hm (by simp)
      have := ih s v h
      rw [this, hs, List.prod_cons]
      ring

theorem one_le_list_prod : ∀ l : List Int, (∀ i ∈ l, 1 ≤ i) → 1 ≤ l.prod := by
  intro l
  induction l with
  | nil => intro _; simp
  | cons i rest ih =>
    intro h
    have hi : 1 ≤ i := h i (by simp)
    have hr : 1 ≤ rest.prod := ih fun j hj => h j (by simp [hj])
    rw [List.prod_cons]
    nlinarith

theorem factLoop_overflow :
    ∀ (l : List Int) (acc : Int), 1 ≤ acc → acc ≤ i64max → (∀ i ∈ l, 1 ≤ i) →
      i64max < acc * l.prod → factLoop acc l = none := by
  intro l
  induction l with
  | nil => intro acc h1 h2 _ hover; simp at hover; omega
  | cons i rest ih =>
    intro acc h1 h2 hmem hover
    have hi : 1 ≤ i := hmem i (by simp)
    have hrest : ∀ j ∈ rest, 1 ≤ j := fun j hj => hmem j (by simp [hj])
    have hprod : 1 ≤ rest.prod := one_le_list_prod rest hrest
    simp only [factLoop]
    cases hm : checked_mul acc i with
    | none => rfl
    | some s =>
      have hs : s = acc * i ∧ acc * i ≤ i64max := by
        simp only [checked_mul] at hm
        split at hm
        · exact ⟨(Option.some.injEq _ _ ▸ hm).symm, by omega⟩
        · exact absurd hm (by simp)
      have h1s : 1 ≤ s := by
        rw [hs.1]; nlinarith
      apply ih s h1s (hs.1 ▸ hs.2) hrest
      rw [hs.1, List.prod_cons] at *
      calc i64max < acc * (i * rest.prod) := hover
        _ = acc * i * rest.prod := by ring

theorem rangeIncl_empty_of_lt {lo hi : Int} (h : hi < lo) : rangeIncl lo hi = [] := by
  have : (hi + 1 - lo).toNat = 0 := by omega
  simp [rangeIncl, this]

theorem rangeIncl_mem_le {lo hi i : Int} (h : i ∈ rangeIncl lo hi) : lo ≤ i := by
  unfold rangeIncl at h
  obtain ⟨k, _, hk⟩ := List.mem_map.1 h
  omega

/-- C2: evaluating a Factorial postfix node on an operand with value `n`
computes the checked product `1 * 2 * … * n` accumulated from 1 over the
range `2..=n`; for `n < 2` (including every negative `n`) the result is
`some 1`; a successful result is exactly the product of that range; and if
that product exceeds the `i64` maximum some intermediate checked
multiplication fails, so the whole evaluation fails. -/
theorem eval_factorial_node (e : Expr) (n : Int) (h : eval e = some n) :
    eval (Expr.PostfixExpr PostfixOperator.Factorial e) = factorial n ∧
      (n < 2 → factorial n = some 1) ∧
      (∀ v, factorial n = some v → v = (rangeIncl 2 n).prod) ∧
      (i64max < (rangeIncl 2 n).prod →
        eval (Expr.PostfixExpr PostfixOperator.Factorial e) = none) := by
  have heval : eval (Expr.PostfixExpr PostfixOperator.Factorial e) = factorial n := by
    simp [eval, h]
  refine ⟨heval, ?_, ?_, ?_⟩
  · intro hn
    simp [factorial, rangeIncl_empty_of_lt hn, factLoop]
  · intro v hv
    have := factLoop_some_prod (rangeIncl 2 n) 1 v hv
    simpa using this
  · intro hover
    rw [heval]
    apply factLoop_overflow (rangeIncl 2 n) 1 le_rfl (by norm_num [i64max])
    · intro i hi
      have := rangeIncl_mem_le hi
      omega
    · simpa using hover

theorem eval_factorial_node_witness :
    eval (Expr.PostfixExpr PostfixOperator.Factorial (Expr.UnaryExpr (-5))) = some 1 :=
  (eval_factorial_node (Expr.UnaryExpr (-5)) (-5) rfl).1.trans
    ((eval_factorial_node (Expr.UnaryExpr (-5)) (-5) rfl).2.1 (by decide))

/-! ## Tokens (token.rs) -/

inductive Token
  | Num (n : Int)
  | Plus
  | Minus
  | Asterisk
  | Slash
  | Percent
  | Lparen
  | Rparen
  | Exclamation
  | Circumflex
deriving DecidableEq

/-! ## Tokenizer (lexer.rs) -/

/-- Rust `char::is_whitespace`: membership in the Unicode White_Space set
(25 code points, a fixed table). -/
def rustIsWhitespace (c : Char) : Bool :=
  [0x9, 0xA, 0xB, 0xC, 0xD, 0x20, 0x85, 0xA0, 0x1680,
   0x2000, 0x2001, 0x2002, 0x2003, 0x2004, 0x2005, 0x2006, 0x2007,
   0x2008, 0x2009, 0x200A, 0x2028, 0x2029, 0x202F, 0x205F, 0x3000].contains c.toNat

/-- Rust pattern `'0'..='9'`. -/
def isDigitChar (c : Char) : Bool :=
  48 ≤ c.toNat && c.toNat ≤ 57

/-- Rust `ch.to_digit(10)` as an `i64`, for a digit character. -/
def digitVal (c : Char) : Int :=
  (c.toNat : Int) - 48

/-- Dispatch of the single-character arms of the `match ch` in `tokenize`. -/
def symTok : Char → Option Token
  | '+' => some Token.Plus
  | '-' => some Token.Minus
  | '*' => some Token.Asterisk
  | '/' => some Token.Slash
  | '%' => some Token.Percent
  | '(' => some Token.Lparen
  | ')' => some Token.Rparen
  | '!' => some Token.Exclamation
  | '^' => some Token.Circumflex
  | _ => none

/-- Rust `consume_num` in lexer.rs: greedily accumulate a decimal digit run
into `sum` with checked base-10 steps, returning the value and the remaining
characters (the first non-digit is not consumed). -/
def consume_num (sum : Int) : List Char → Option (Int × List Char)
  | [] => some (sum, [])
  | c :: rest =>
    if isDigitChar c then
      match checked_mul sum 10 with
      | none => none
      | some temp =>
        match checked_add temp (digitVal c) with
        | none => none
        | some s => consume_num s rest
    else some (sum, c :: rest)

/-- Rust `tokenize` in lexer.rs, with a fuel parameter standing for the
`while let` loop; every loop step consumes at least one character, so fuel
`cs.length + 1` (supplied by `tokenize` below) never runs out. -/
def tokenizeF : Nat → List Char → Option (List Token)
  | _, [] => some []
  | 0, _ :: _ => none
  | f + 1, c :: rest =>
    if rustIsWhitespace c then tokenizeF f rest
    else
      match symTok c with
      | some t => (tokenizeF f rest).map (fun ts => t :: ts)
      | none =>
        if isDigitChar c then
          match consume_num 0 (c :: rest) with
          | none => none
          | some (sum, rest2) => (tokenizeF f rest2).map (fun ts => Token.Num sum :: ts)
        else none

/-- Rust `Lexer::new(line).tokenize()`. -/
def tokenize (cs : List Char) : Option (List Token) :=
  tokenizeF (cs.length + 1) cs

/-! ## Spec-side characterization of tokenization (for C4) -/

/-- Character class accepted by the tokenizer, in the spec's words:
whitespace, a recognized symbol, or a decimal digit. -/
def goodChar (c : Char) : Bool :=
  rustIsWhitespace c || (symTok c).isSome || isDigitChar c

theorem dropWhile_length_le (p : Char → Bool) (l : List Char) :
    (l.dropWhile p).length ≤ l.length := by
  induction l with
  | nil => simp [List.dropWhile]
  | cons c rest ih =>
    rw [List.dropWhile_cons]
    split
    · exact Nat.le_succ_of_le ih
    · simp

theorem dropWhile_cons_length_lt (p : Char → Bool) (c : Char) (rest : List Char)
    (h : p c = true) : (List.dropWhile p (c :: rest)).length < (c :: rest).length := by
  rw [List.dropWhile_cons, if_pos h]
  exact Nat.lt_succ_of_le (dropWhile_length_le p rest)

/-- Maximal decimal digit runs of a line, in order. -/
def splitRuns : List Char → List (List Char)
  | [] => []
  | c :: rest =>
    if isDigitChar c then
      ((c :: rest).takeWhile isDigitChar) :: splitRuns ((c :: rest).dropWhile isDigitChar)
    else splitRuns rest
termination_by cs => cs.length
decreasing_by
  all_goals
    first
      | exact dropWhile_cons_length_lt _ _ _ (by assumption)
      | simp

/-- Base-10 positional accumulation `value = value*10 + digit` of a digit
run onto a starting value, as the spec describes it (no overflow check). -/
def accVal (s : Int) (l : List Char) : Int :=
  l.foldl (fun acc c => acc * 10 + digitVal c) s

/-- Numeric value of a digit run. -/
def runVal (l : List Char) : Int :=
  accVal 0 l

/-- Spec-side token sequence of a line ("Modelled from the spec" only as a
comparison point for the refinement part of C4): whitespace is skipped,
symbols map directly to their token, and each maximal digit run becomes one
integer-literal token holding its base-10 value.  Overflow and bad
characters are not handled here; the characterization theorem shows the
source tokenizer agrees with this sequence exactly on inputs where it
succeeds. -/
def specTokens : List Char → List Token
  | [] => []
  | c :: rest =>
    if rustIsWhitespace c then specTokens rest
    else
      match symTok c with
      | some t => t :: specTokens rest
      | none =>
        if isDigitChar c then
          Token.Num (runVal ((c :: rest).takeWhile isDigitChar))
            :: specTokens ((c :: rest).dropWhile isDigitChar)
        else specTokens rest
termination_by cs => cs.length
decreasing_by
  all_goals
    first
      | exact dropWhile_cons_length_lt _ _ _ (by assumption)
      | simp

/-! ## Character-class facts -/

theorem ws_not_digit {c : Char} (h : rustIsWhitespace c = true) : isDigitChar c = false := by
  simp [rustIsWhitespace] at h
  simp [isDigitChar]
  omega

theorem digit_symTok_none {c : Char} (h : isDigitChar c = true) : symTok c = none := by
  simp [isDigitChar] at h
  unfold symTok
  split <;> simp_all

theorem digit_val_bounds {c : Char} (h : isDigitChar c = true) :
    0 ≤ digitVal c ∧ digitVal c ≤ 9 := by
  simp [isDigitChar] at h
  unfold digitVal
  omega

/-! ## Behaviour of `consume_num` (supporting C4) -/

theorem accVal_cons (s : Int) (c : Char) (l : List Char) :
    accVal s (c :: l) = accVal (s * 10 + digitVal c) l := rfl

theorem accVal_ge : ∀ (l : List Char) (s : Int), 0 ≤ s →
    (∀ c ∈ l, isDigitChar c = true) → s ≤ accVal s l := by
  intro l
  induction l with
  | nil =>
    intro s _ _
    exact le_of_eq rfl
  | cons c rest ih =>
    intro s hs hdl
    have hc := hdl c (List.mem_cons_self c rest)
    have hcb := digit_val_bounds hc
    rw [accVal_cons]
    have hstep : s ≤ s * 10 + digitVal c := by omega
    have := ih (s * 10 + digitVal c) (by omega) (fun x hx => hdl x (List.mem_cons_of_mem _ hx))
    omega

theorem consume_step_some {s : Int} {c : Char} (h0 : 0 ≤ s) (hd : isDigitChar c = true)
    (hB : s * 10 + digitVal c ≤ i64max) (rest : List Char) :
    consume_num s (c :: rest) = consume_num (s * 10 + digitVal c) rest := by
  have hdb := digit_val_bounds hd
  have hmul : i64min ≤ s * 10 ∧ s * 10 ≤ i64max := by
    simp only [i64min, i64max] at *
    omega
  have hadd : i64min ≤ s * 10 + digitVal c ∧ s * 10 + digitVal c ≤ i64max := by
    simp only [i64min, i64max] at *
    omega
  simp only [consume_num, hd, if_true, checked_mul, checked_add, if_pos hmul, if_pos hadd]

theorem consume_step_none {s : Int} {c : Char} (h0 : 0 ≤ s) (hd : isDigitChar c = true)
    (hB : i64max < s * 10 + digitVal c) (rest : List Char) :
    consume_num s (c :: rest) = none := by
  have hdb := digit_val_bounds hd
  simp only [consume_num, hd, if_true]
  by_cases hmul : s * 10 ≤ i64max
  · have h1 : checked_mul s 10 = some (s * 10) := by
      have : i64min ≤ s * 10 ∧ s * 10 ≤ i64max := by
        simp only [i64min, i64max] at *
        omega
      simp only [checked_mul, if_pos this]
    have h2 : checked_add (s * 10) (digitVal c) = none := by
      have : ¬(i64min ≤ s * 10 + digitVal c ∧ s * 10 + digitVal c ≤ i64max) := by
        simp only [i64min, i64max] at *
        omega
      simp only [checked_add, if_neg this]
    simp only [h1, h2]
  · have h1 : checked_mul s 10 = none := by
      have : ¬(i64min ≤ s * 10 ∧ s * 10 ≤ i64max) := by
        simp only [i64min, i64max] at *
        omega
      simp only [checked_mul, if_neg this]
    simp only [h1]

theorem consume_num_spec : ∀ (cs : List Char) (s : Int), 0 ≤ s → s ≤ i64max →
    (accVal s (cs.takeWhile isDigitChar) ≤ i64max →
      consume_num s cs =
        some (accVal s (cs.takeWhile isDigitChar), cs.dropWhile isDigitChar)) ∧
    (i64max < accVal s (cs.takeWhile isDigitChar) → consume_num s cs = none) := by
  intro cs
  induction cs with
  | nil =>
    intro s h0 hmax
    constructor
    · intro _
      simp [consume_num, List.takeWhile, List.dropWhile, accVal]
    · intro hover
      simp [List.takeWhile, accVal] at hover
      omega
  | cons c rest ih =>
    intro s h0 hmax
    by_cases hd : isDigitChar c = true
    · have hdb := digit_val_bounds hd
      have htw : (c :: rest).takeWhile isDigitChar = c :: rest.takeWhile isDigitChar := by
        simp [List.takeWhile_cons, hd]
      have hdw : (c :: rest).dropWhile isDigitChar = rest.dropWhile isDigitChar := by
        simp [List.dropWhile_cons, hd]
      have hmemtw : ∀ x ∈ rest.takeWhile isDigitChar, isDigitChar x = true :=
        fun x hx => List.mem_takeWhile_imp hx
      rw [htw, hdw, accVal_cons]
      by_cases hB : s * 10 + digitVal c ≤ i64max
      · rw [consume_step_some h0 hd hB]
        exact ih (s * 10 + digitVal c) (by omega) hB
      · push_neg at hB
        have hge : s * 10 + digitVal c ≤ accVal (s * 10 + digitVal c) (rest.takeWhile isDigitChar) :=
          accVal_ge _ _ (by omega) hmemtw
        constructor
        · intro hp
          omega
        · intro _
          exact consume_step_none h0 hd hB rest
    · have hd' : isDigitChar c = false := by simpa using hd
      have htw : (c :: rest).takeWhile isDigitChar = [] := by
        simp [List.takeWhile_cons, hd']
      have hdw : (c :: rest).dropWhile isDigitChar = c :: rest := by
        simp [List.dropWhile_cons, hd']
      rw [htw, hdw]
      constructor
      · intro _
        simp [consume_num, hd', accVal]
      · intro hover
        simp [accVal] at hover
        omega

/-! ## Unfolding equations for `splitRuns` and `specTokens` -/

theorem splitRuns_nil : splitRuns [] = [] := by
  simp [splitRuns]

theorem splitRuns_cons_digit {c : Char} {rest : List Char} (hd : isDigitChar c = true) :
    splitRuns (c :: rest) =
      ((c :: rest).takeWhile isDigitChar) :: splitRuns ((c :: rest).dropWhile isDigitChar) := by
  rw [splitRuns]
  simp [hd]

theorem splitRuns_cons_nondigit {c : Char} {rest : List Char} (hd : isDigitChar c = false) :
    splitRuns (c :: rest) = splitRuns rest := by
  rw [splitRuns]
  simp [hd]

theorem specTokens_nil : specTokens [] = [] := by
  simp [specTokens]

theorem specTokens_cons_ws {c : Char} {rest : List Char} (hws : rustIsWhitespace c = true) :
    specTokens (c :: rest) = specTokens rest := by
  rw [specTokens]
  simp [hws]

theorem specTokens_cons_sym {c : Char} {rest : List Char} {t : Token}
    (hws : rustIsWhitespace c = false) (hsym : symTok c = some t) :
    specTokens (c :: rest) = t :: specTokens rest := by
  rw [specTokens]
  simp [hws, hsym]

theorem specTokens_cons_digit {c : Char} {rest : List Char}
    (hws : rustIsWhitespace c = false) (hd : isDigitChar c = true) :
    specTokens (c :: rest) =
      Token.Num (runVal ((c :: rest).takeWhile isDigitChar))
        :: specTokens ((c :: rest).dropWhile isDigitChar) := by
  rw [specTokens]
  simp [hws, digit_symTok_none hd, hd]

/-! ## The failure predicate of tokenization, and the characterization -/

/-- Failure condition of tokenization as the spec states it: a character
outside the accepted classes, or a maximal digit run whose value exceeds
the `i64` range. -/
def badLine (cs : List Char) : Prop :=
  (∃ c ∈ cs, goodChar c = false) ∨ ∃ r ∈ splitRuns cs, i64max < runVal r

theorem badLine_cons_good {c : Char} {rest : List Char}
    (hgood : goodChar c = true) (hd : isDigitChar c = false) :
    badLine (c :: rest) ↔ badLine rest := by
  unfold badLine
  rw [splitRuns_cons_nondigit hd]
  constructor
  · rintro (⟨x, hx, hgx⟩ | h)
    · rcases List.mem_cons.1 hx with rfl | hx'
      · rw [hgood] at hgx; cases hgx
      · exact Or.inl ⟨x, hx', hgx⟩
    · exact Or.inr h
  · rintro (⟨x, hx, hgx⟩ | h)
    · exact Or.inl ⟨x, List.mem_cons_of_mem _ hx, hgx⟩
    · exact Or.inr h

theorem badLine_cons_digit_fits {c : Char} {rest : List Char} (hd : isDigitChar c = true)
    (hfit : runVal ((c :: rest).takeWhile isDigitChar) ≤ i64max) :
    badLine (c :: rest) ↔ badLine (rest.dropWhile isDigitChar) := by
  have hdw : (c :: rest).dropWhile isDigitChar = rest.dropWhile isDigitChar := by
    simp [List.dropWhile_cons, hd]
  unfold badLine
  rw [splitRuns_cons_digit hd, hdw]
  constructor
  · rintro (⟨x, hx, hgx⟩ | ⟨r, hr, hor⟩)
    · have hx2 : x ∈ (c :: rest).takeWhile isDigitChar ++ (c :: rest).dropWhile isDigitChar := by
        rw [List.takeWhile_append_dropWhile]
        exact hx
      rcases List.mem_append.1 hx2 with h1 | h2
      · have hxd := List.mem_takeWhile_imp h1
        simp [goodChar, hxd] at hgx
      · rw [hdw] at h2
        exact Or.inl ⟨x, h2, hgx⟩
    · rcases List.mem_cons.1 hr with rfl | hr'
      · omega
      · exact Or.inr ⟨r, hr', hor⟩
  · rintro (⟨x, hx, hgx⟩ | ⟨r, hr, hor⟩)
    · have hx2 : x ∈ (c :: rest).takeWhile isDigitChar ++ (c :: rest).dropWhile isDigitChar :=
        List.mem_append_right _ (by rw [hdw]; exact hx)
      rw [List.takeWhile_append_dropWhile] at hx2
      exact Or.inl ⟨x, hx2, hgx⟩
    · exact Or.inr ⟨r, List.mem_cons_of_mem _ hr, hor⟩

theorem tokenizeF_spec : ∀ (f : Nat) (cs : List Char), cs.length < f →
    (tokenizeF f cs = none ↔ badLine cs) ∧
    (∀ ts, tokenizeF f cs = some ts → ts = specTokens cs) := by
  intro f
  induction f with
  | zero =>
    intro cs h
    omega
  | succ g ih =>
    intro cs hlen
    cases cs with
    | nil =>
      constructor
      · simp [tokenizeF, badLine, splitRuns_nil]
      · intro ts hts
        simp [tokenizeF] at hts
        simp [specTokens_nil, hts]
    | cons c rest =>
      have hlen' : rest.length < g := by
        simp only [List.length_cons] at hlen
        omega
      have hws_or := Bool.eq_false_or_eq_true (rustIsWhitespace c)
      by_cases hws : rustIsWhitespace c = true
      · -- whitespace: skipped
        have hd := ws_not_digit hws
        have hgood : goodChar c = true := by simp [goodChar, hws]
        have htok : tokenizeF (g + 1) (c :: rest) = tokenizeF g rest := by
          simp [tokenizeF, hws]
        obtain ⟨ih1, ih2⟩ := ih rest hlen'
        refine ⟨?_, ?_⟩
        · rw [htok, badLine_cons_good hgood hd]
          exact ih1
        · intro ts hts
          rw [htok] at hts
          rw [specTokens_cons_ws hws]
          exact ih2 ts hts
      · have hws' : rustIsWhitespace c = false := by simpa using hws
        cases hsym : symTok c with
        | some t =>
          -- single-character symbol
          have hd : isDigitChar c = false := by
            cases hdc : isDigitChar c
            · rfl
            · rw [digit_symTok_none hdc] at hsym; cases hsym
          have hgood : goodChar c = true := by simp [goodChar, hsym]
          have htok : tokenizeF (g + 1) (c :: rest) =
              (tokenizeF g rest).map (fun ts => t :: ts) := by
            simp [tokenizeF, hws', hsym]
          obtain ⟨ih1, ih2⟩ := ih rest hlen'
          refine ⟨?_, ?_⟩
          · rw [htok, badLine_cons_good hgood hd]
            rw [← ih1]
            cases htr : tokenizeF g rest <;> simp [htr]
          · intro ts hts
            rw [htok] at hts
            cases htr : tokenizeF g rest with
            | none => rw [htr] at hts; cases hts
            | some ts2 =>
              rw [htr] at hts
              simp only [Option.map_some', Option.some.injEq] at hts
              rw [specTokens_cons_sym hws' hsym, ← ih2 ts2 htr, ← hts]
        | none =>
          by_cases hd : isDigitChar c = true
          · -- digit run
            have hdw : (c :: rest).dropWhile isDigitChar = rest.dropWhile isDigitChar := by
              simp [List.dropWhile_cons, hd]
            have hlen2 : (rest.dropWhile isDigitChar).length < g :=
              lt_of_le_of_lt (dropWhile_length_le _ _) hlen'
            have hspec := consume_num_spec (c :: rest) 0 le_rfl (by norm_num [i64max])
            by_cases hover : i64max < runVal ((c :: rest).takeWhile isDigitChar)
            · -- the run's value overflows: the whole line fails
              have hcn : consume_num 0 (c :: rest) = none := hspec.2 hover
              have htok : tokenizeF (g + 1) (c :: rest) = none := by
                simp [tokenizeF, hws', hsym, hd, hcn]
              refine ⟨?_, ?_⟩
              · rw [htok]
                constructor
                · intro _
                  refine Or.inr ⟨_, ?_, hover⟩
                  rw [splitRuns_cons_digit hd]
                  exact List.mem_cons_self _ _
                · intro _
                  rfl
              · intro ts hts
                rw [htok] at hts
                cases hts
            · push_neg at hover
              have hcs : consume_num 0 (c :: rest) =
                  some (runVal ((c :: rest).takeWhile isDigitChar),
                    rest.dropWhile isDigitChar) := by
                have h1 := hspec.1 hover
                rwa [hdw] at h1
              have htok : tokenizeF (g + 1) (c :: rest) =
                  (tokenizeF g (rest.dropWhile isDigitChar)).map
                    (fun ts => Token.Num (runVal ((c :: rest).takeWhile isDigitChar)) :: ts) := by
                simp [tokenizeF, hws', hsym, hd, hcs]
              obtain ⟨ih1, ih2⟩ := ih (rest.dropWhile isDigitChar) hlen2
              refine ⟨?_, ?_⟩
              · rw [htok, badLine_cons_digit_fits hd hover, ← ih1]
                cases htr : tokenizeF g (rest.dropWhile isDigitChar) <;> simp [htr]
              · intro ts hts
                rw [htok] at hts
                cases htr : tokenizeF g (rest.dropWhile isDigitChar) with
                | none => rw [htr] at hts; cases hts
                | some ts2 =>
                  rw [htr] at hts
                  simp only [Option.map_some', Option.some.injEq] at hts
                  rw [specTokens_cons_digit hws' hd, hdw, ← ih2 ts2 htr, ← hts]
          · -- unrecognized character
            have hd' : isDigitChar c = false := by simpa using hd
            have hgood : goodChar c = false := by simp [goodChar, hws', hsym, hd']
            have htok : tokenizeF (g + 1) (c :: rest) = none := by
              simp [tokenizeF, hws', hsym, hd']
            refine ⟨?_, ?_⟩
            · rw [htok]
              constructor
              · intro _
                exact Or.inl ⟨c, List.mem_cons_self _ _, hgood⟩
              · intro _
                rfl
            · intro ts hts
              rw [htok] at hts
              cases hts

theorem splitRuns_eq_nil {cs : List Char} (h : ∀ c ∈ cs, isDigitChar c = false) :
    splitRuns cs = [] := by
  induction cs with
  | nil => exact splitRuns_nil
  | cons c rest ih =>
    rw [splitRuns_cons_nondigit (h c (List.mem_cons_self c rest))]
    exact ih fun x hx => h x (List.mem_cons_of_mem _ hx)

theorem specTokens_ws_nil {cs : List Char} (h : ∀ c ∈ cs, rustIsWhitespace c = true) :
    specTokens cs = [] := by
  induction cs with
  | nil => exact specTokens_nil
  | cons c rest ih =>
    rw [specTokens_cons_ws (h c (List.mem_cons_self c rest))]
    exact ih fun x hx => h x (List.mem_cons_of_mem _ hx)

/-- C4: tokenization of a line fails exactly when the line contains a
character that is not whitespace, a recognized symbol, or a decimal digit,
or when the base-10 value of some maximal digit run exceeds the signed
64-bit range (the checked accumulation `value = value*10 + digit` overflows);
otherwise it succeeds with the complete ordered token sequence described by
`specTokens` — in particular the empty sequence for a blank line — and a
partial sequence is never produced. -/
theorem tokenize_characterization (cs : List Char) :
    (tokenize cs = none ↔
      (∃ c ∈ cs, goodChar c = false) ∨ ∃ r ∈ splitRuns cs, i64max < runVal r) ∧
    (∀ ts, tokenize cs = some ts → ts = specTokens cs) ∧
    ((∀ c ∈ cs, rustIsWhitespace c = true) → tokenize cs = some []) := by
  have h := tokenizeF_spec (cs.length + 1) cs (by omega)
  refine ⟨h.1, h.2, ?_⟩
  intro hws
  have hnd : ∀ c ∈ cs, isDigitChar c = false := fun c hc => ws_not_digit (hws c hc)
  have hnb : ¬ badLine cs := by
    unfold badLine
    rintro (⟨x, hx, hgx⟩ | ⟨r, hr, _⟩)
    · have hg : goodChar x = true := by simp [goodChar, hws x hx]
      rw [hg] at hgx
      cases hgx
    · rw [splitRuns_eq_nil hnd] at hr
      cases hr
  have hne : tokenize cs ≠ none := fun h0 => hnb (h.1.mp h0)
  obtain ⟨ts, hts⟩ := Option.ne_none_iff_exists'.1 hne
  rw [hts, h.2 ts hts, specTokens_ws_nil hws]

theorem tokenize_characterization_witness : tokenize [' '] = some [] :=
  (tokenize_characterization [' ']).2.2 (by decide)

/-! ## Parser (parser.rs) -/

/-- Rust `Precedence` enum (derived `PartialOrd` follows declaration order). -/
inductive Precedence
  | Lowest
  | Sum
  | Product
  | PrefixP
deriving DecidableEq

/-- Rank realizing the derived order `Lowest < Sum < Product < PrefixP`. -/
def Precedence.toNat : Precedence → Nat
  | Precedence.Lowest => 0
  | Precedence.Sum => 1
  | Precedence.Product => 2
  | Precedence.PrefixP => 3

/-- Rust `Parser` struct: the token sequence plus the cursor index. -/
structure PState where
  tokens : List Token
  index : Nat
deriving DecidableEq

/-- Rust `Parser::current_token`. -/
def currentToken (s : PState) : Option Token :=
  s.tokens.get? s.index

/-- Rust `Parser::peek_token`. -/
def peekToken (s : PState) : Option Token :=
  s.tokens.get? (s.index + 1)

/-- Rust `Parser::next` (advance the cursor). -/
def nextP (s : PState) : PState :=
  { s with index := s.index + 1 }

/-- Rust `Parser::peek_token_to_precedence`. -/
def peek_token_to_precedence (s : PState) : Precedence :=
  match peekToken s with
  | some Token.Minus => Precedence.Sum
  | some Token.Plus => Precedence.Sum
  | some Token.Slash => Precedence.Product
  | some Token.Asterisk => Precedence.Product
  | some Token.Percent => Precedence.Product
  | _ => Precedence.Lowest

/-- Rust `Parser::peek_token_is(&Token::Rparen)`. -/
def peek_token_is_rparen (s : PState) : Bool :=
  match peekToken s with
  | some Token.Rparen => true
  | _ => false

/-- Rust cast `n as u32` from `i64`: the low 32 bits, i.e. `n mod 2^32`. -/
def i64_as_u32 (n : Int) : Nat :=
  (n % 4294967296).toNat

/-- Rust `Parser::parse_postfix_expr`: note the dispatch is on `peek_token`,
one position ahead of the already-parsed left-hand side, and the circumflex
arm advances twice and then requires an integer literal at `current_token`. -/
def parse_postfix_expr (lhs : Expr) (s : PState) : Option (Expr × PState) :=
  match peekToken s with
  | some Token.Exclamation =>
    some (Expr.PostfixExpr PostfixOperator.Factorial lhs, nextP s)
  | some Token.Circumflex =>
    let s2 := nextP (nextP s)
    match currentToken s2 with
    | some (Token.Num n) =>
      some (Expr.PostfixExpr (PostfixOperator.Exponential (i64_as_u32 n)) lhs, s2)
    | _ => none
  | _ => some (lhs, s)

mutual

/-- Rust `Parser::parse_expr`, with a fuel parameter standing for the
unbounded recursion; every recursive call strictly consumes fuel, and the
fuel supplied by `parse` below is ample for the inputs considered. -/
def parse_expr : Nat → Precedence → PState → Option (Expr × PState)
  | 0, _, _ => none
  | f + 1, p, s =>
    match parse_prefix_expr f s with
    | none => none
    | some (lhs, s1) =>
      match parse_postfix_expr lhs s1 with
      | none => none
      | some (lhs2, s2) => parse_loop f p lhs2 s2

/-- The `while` loop inside `parse_expr`: as long as a peeked token exists
and its precedence is strictly greater than `p`, advance onto the operator
and fold it into the left-hand side via `parse_infix_expr`. -/
def parse_loop : Nat → Precedence → Expr → PState → Option (Expr × PState)
  | f, p, lhs, s =>
    match peekToken s with
    | none => some (lhs, s)
    | some _ =>
      if (peek_token_to_precedence s).toNat ≤ p.toNat then some (lhs, s)
      else
        match f with
        | 0 => none
        | f + 1 =>
          match parse_infix_expr f lhs (nextP s) with
          | none => none
          | some (lhs2, s2) => parse_loop f p lhs2 s2

/-- Rust `Parser::parse_prefix_expr`.  An integer literal is returned
without advancing the cursor. -/
def parse_prefix_expr : Nat → PState → Option (Expr × PState)
  | 0, _ => none
  | f + 1, s =>
    match currentToken s with
    | some Token.Plus =>
      match parse_expr f Precedence.PrefixP (nextP s) with
      | none => none
      | some (rhs, s2) => some (Expr.PrefixExpr PrefixOperator.Plus rhs, s2)
    | some Token.Minus =>
      match parse_expr f Precedence.PrefixP (nextP s) with
      | none => none
      | some (rhs, s2) => some (Expr.PrefixExpr PrefixOperator.Minus rhs, s2)
    | some (Token.Num n) => some (Expr.UnaryExpr n, s)
    | some Token.Lparen => parse_grouped_expr f s
    | _ => none

/-- Rust `Parser::parse_grouped_expr`. -/
def parse_grouped_expr : Nat → PState → Option (Expr × PState)
  | 0, _ => none
  | f + 1, s =>
    match parse_expr f Precedence.Lowest (nextP s) with
    | none => none
    | some (lhs, s2) =>
      if peek_token_is_rparen s2 then some (lhs, nextP s2) else none

/-- Rust `Parser::parse_infix_expr` (the cursor is already on the operator). -/
def parse_infix_expr : Nat → Expr → PState → Option (Expr × PState)
  | 0, _, _ => none
  | f + 1, lhs, s =>
    match currentToken s with
    | some Token.Plus =>
      match parse_expr f Precedence.Sum (nextP s) with
      | none => none
      | some (rhs, s2) =>
        some (Expr.BinaryExpr lhs rhs Operator.Add, s2)
    | some Token.Minus =>
      match parse_expr f Precedence.Sum (nextP s) with
      | none => none
      | some (rhs, s2) =>
        some (Expr.BinaryExpr lhs rhs Operator.Sub, s2)
    | some Token.Slash =>
      match parse_expr f Precedence.Product (nextP s) with
      | none => none
      | some (rhs, s2) =>
        some (Expr.BinaryExpr lhs rhs Operator.Div, s2)
    | some Token.Asterisk =>
      match parse_expr f Precedence.Product (nextP s) with
      | none => none
      | some (rhs, s2) =>
        some (Expr.BinaryExpr lhs rhs Operator.Mul, s2)
    | some Token.Percent =>
      match parse_expr f Precedence.Product (nextP s) with
      | none => none
      | some (rhs, s2) =>
        some (Expr.BinaryExpr lhs rhs Operator.Rem, s2)
    | _ => none

end

/-- Rust `Parser::new(tokens).parse()`: run `parse_expr` at `Lowest`
precedence from index 0 and drop the final cursor.  The fuel bound
`5 * tokens.length + 10` over-approximates the recursion depth: every
cycle of mutually recursive calls advances the cursor, which never exceeds
the token count. -/
def parse (tokens : List Token) : Option Expr :=
  match parse_expr (5 * tokens.length + 10) Precedence.Lowest ⟨tokens, 0⟩ with
  | none => none
  | some (e, _) => some e

/-! ## The per-line pipeline (main.rs drives tokenize → parse → eval) -/

/-- Tokenize then parse one line (the first two stages of the driver loop). -/
def parseLine (line : List Char) : Option Expr :=
  match tokenize line with
  | none => none
  | some ts => parse ts

/-- Full pipeline of the driver loop in main.rs: tokenize, parse, evaluate. -/
def pipeline (line : List Char) : Option Int :=
  match tokenize line with
  | none => none
  | some ts =>
    match parse ts with
    | none => none
    | some e => eval e

/-- Recognizer for integer-literal tokens. -/
def isNumTok : Token → Bool
  | Token.Num _ => true
  | _ => false

/-- C3: the parser does not require all tokens to be consumed: a literal
token followed by a second literal (and arbitrary further tokens) parses
successfully to the first literal alone, silently ignoring the leftover
tokens. -/
theorem parse_ignores_trailing_tokens (a b : Int) (rest : List Token) :
    parse (Token.Num a :: Token.Num b :: rest) = some (Expr.UnaryExpr a) := rfl

/-- C5: running tokenize, parse, evaluate on the line
`-(3 * 2)! / (11 % 3)` succeeds with the integer `-360`; the parse tree has
the division at top level, with the factorial applied to the parenthesized
product before the prefix negation. -/
theorem pipeline_neg_fact_div_example :
    pipeline (String.toList "-(3 * 2)! / (11 % 3)") = some (-360) ∧
    parseLine (String.toList "-(3 * 2)! / (11 % 3)") = some
      (Expr.BinaryExpr
        (Expr.PrefixExpr PrefixOperator.Minus
          (Expr.PostfixExpr PostfixOperator.Factorial
            (Expr.BinaryExpr (Expr.UnaryExpr 3) (Expr.UnaryExpr 2) Operator.Mul)))
        (Expr.BinaryExpr (Expr.UnaryExpr 11) (Expr.UnaryExpr 3) Operator.Rem)
        Operator.Div) :=
  ⟨by decide, by decide⟩

/-- C6: binary operators of equal precedence are left-associative: the token
sequence of `a - b - c` parses to `(a - b) - c` and not to `a - (b - c)`. -/
theorem parse_sub_left_assoc (a b c : Int) :
    parse [Token.Num a, Token.Minus, Token.Num b, Token.Minus, Token.Num c] =
      some (Expr.BinaryExpr
        (Expr.BinaryExpr (Expr.UnaryExpr a) (Expr.UnaryExpr b) Operator.Sub)
        (Expr.UnaryExpr c) Operator.Sub) ∧
    parse [Token.Num a, Token.Minus, Token.Num b, Token.Minus, Token.Num c] ≠
      some (Expr.BinaryExpr (Expr.UnaryExpr a)
        (Expr.BinaryExpr (Expr.UnaryExpr b) (Expr.UnaryExpr c) Operator.Sub)
        Operator.Sub) := by
  constructor
  · rfl
  · intro h
    have h1 : parse [Token.Num a, Token.Minus, Token.Num b, Token.Minus, Token.Num c] =
        some (Expr.BinaryExpr
          (Expr.BinaryExpr (Expr.UnaryExpr a) (Expr.UnaryExpr b) Operator.Sub)
          (Expr.UnaryExpr c) Operator.Sub) := rfl
    rw [h1] at h
    simp at h

/-- C7: in the postfix suffix, a circumflex not immediately followed by an
integer literal token — including a circumflex at the end of the input —
fails the whole parse; with a following literal, the left-hand side is
wrapped in an Exponential postfix node carrying the literal cast to an
unsigned 32-bit exponent. -/
theorem parse_circumflex_requires_literal :
    (∀ n : Int, parse [Token.Num n, Token.Circumflex] = none) ∧
    (∀ (n : Int) (t : Token), isNumTok t = false →
      parse [Token.Num n, Token.Circumflex, t] = none) ∧
    (∀ n m : Int, parse [Token.Num n, Token.Circumflex, Token.Num m] =
      some (Expr.PostfixExpr (PostfixOperator.Exponential (i64_as_u32 m))
        (Expr.UnaryExpr n))) := by
  refine ⟨fun n => rfl, ?_, fun n m => rfl⟩
  intro n t ht
  cases t <;> first | rfl | exact absurd ht (by simp [isNumTok])

theorem parse_circumflex_requires_literal_witness :
    parse [Token.Num 1, Token.Circumflex, Token.Plus] = none :=
  parse_circumflex_requires_literal.2.1 1 Token.Plus rfl

/-- C9: the exponent stored in an Exponential postfix node is the
circumflex's literal reduced modulo `2^32` (the truncating `i64`-to-`u32`
cast); in particular `2 ^ 4294967296` parses to exponent 0 and evaluates
to 1. -/
theorem exponential_cast_mod :
    (∀ n m : Int, 0 ≤ m → m ≤ i64max →
      parse [Token.Num n, Token.Circumflex, Token.Num m] =
        some (Expr.PostfixExpr (PostfixOperator.Exponential ((m % 4294967296).toNat))
          (Expr.UnaryExpr n))) ∧
    pipeline (String.toList "2 ^ 4294967296") = some 1 :=
  ⟨fun n m _ _ => rfl, by decide⟩

theorem exponential_cast_mod_witness :
    parse [Token.Num 2, Token.Circumflex, Token.Num 4294967296] =
      some (Expr.PostfixExpr
        (PostfixOperator.Exponential (((4294967296 : Int) % 4294967296).toNat))
        (Expr.UnaryExpr 2)) :=
  exponential_cast_mod.1 2 4294967296 (by decide) (by decide)

theorem parse_ignores_trailing_tokens_witness :
    parse [Token.Num 7, Token.Num 8] = some (Expr.UnaryExpr 7) :=
  parse_ignores_trailing_tokens 7 8 []

theorem parse_sub_left_assoc_witness :
    parse [Token.Num 1, Token.Minus, Token.Num 2, Token.Minus, Token.Num 3] =
      some (Expr.BinaryExpr
        (Expr.BinaryExpr (Expr.UnaryExpr 1) (Expr.UnaryExpr 2) Operator.Sub)
        (Expr.UnaryExpr 3) Operator.Sub) :=
  (parse_sub_left_assoc 1 2 3).1

theorem eval_terminates_witness :
    evalFuel (size (Expr.UnaryExpr 42)) (Expr.UnaryExpr 42) =
      some (eval (Expr.UnaryExpr 42)) :=
  eval_terminates (Expr.UnaryExpr 42)
